import Mathlib

/-!
Shallow embedding of the quiz-state / geometry core of the bass fretboard
trainer (src/unnamed/part_000).  Pure functions are translated directly;
the React component state (`currentMidi`, the deck, the debounce timestamp
ref and the single-flight guard ref) is modelled as an explicit state
record with a step function `onHit` mirroring the `onHit` callback, and
`nextTarget` / `runFrame` mirroring the deck advance scheduled via
`requestAnimationFrame`.  JS `number` timestamps and SVG coordinates are
modelled as `ℚ`; MIDI values as `ℤ`.  `Math.random()` is modelled by an
explicit tape of naturals (`tape i % (i+1)` plays the role of
`Math.floor(Math.random() * (i + 1))`, which ranges over `0..i`).
-/

/-- `type StringCount = 4 | 5 | 6` -/
inductive StringCount
  | s4
  | s5
  | s6
deriving DecidableEq

/-- `OPEN_MIDIS: Record<StringCount, number[]>` — open-string MIDI pitches,
lowest first. -/
def OPEN_MIDIS : StringCount → List ℤ
  | .s4 => [28, 33, 38, 43]
  | .s5 => [23, 28, 33, 38, 43]
  | .s6 => [23, 28, 33, 38, 43, 48]

/-- `type Target = { stringIndex: number; fret: number }` -/
structure Target where
  stringIndex : ℕ
  fret : ℕ
deriving DecidableEq

/-- `NOTE_NAMES_SHARP` -/
def NOTE_NAMES_SHARP : List String :=
  ["C", "C#", "D", "D#", "E", "F"] ++ ["F#", "G", "G#", "A", "A#", "B"]

/-- `midiToNameOctave(midi)`: name from the sharp table at `midi % 12`,
octave `Math.floor(midi / 12) - 1`. -/
def midiToNameOctave (midi : ℕ) : String :=
  let name := NOTE_NAMES_SHARP.getD (midi % 12) ""
  let octave : ℤ := Int.ofNat (midi / 12) - 1
  name ++ toString octave

/-- The spec's formula for `pitchName`, written from the spec's words:
reduce the pitch modulo 12 against the fixed sharp name table, octave is
`floor(pitch/12) - 1`. -/
def pitchNameSpec (midi : ℕ) : String :=
  NOTE_NAMES_SHARP.getD (midi % 12) "" ++ toString (Int.ofNat (midi / 12) - 1)

/-- Quiz-session state: the component state used by `onHit` and
`nextTarget` (`currentMidi`, the deck, `lastHitTsRef`, `pendingNextRef`). -/
structure QuizState where
  currentMidi : Option ℤ
  deck : List ℤ
  lastHitTs : ℚ
  pendingNext : Bool
deriving DecidableEq

/-- Outcome of one `onHit` call: `correct` when the ok-branch runs,
`incorrect` when the wrong-feedback branch runs (shake + red overlay),
`ignored` when the call returns early (debounce, or no current target). -/
inductive Outcome
  | correct
  | incorrect
  | ignored
deriving DecidableEq

/-- `possibleMidis`: the distinct targetable MIDI notes, built like the JS
`Set` (insertion order, duplicates skipped) over all strings and frets
`0..frets`. -/
def possibleMidis (sc : StringCount) (frets : ℕ) : List ℤ :=
  (OPEN_MIDIS sc).foldl
    (fun acc op =>
      (List.range (frets + 1)).foldl
        (fun (acc : List ℤ) (f : ℕ) =>
          if (op + (f : ℤ)) ∈ acc then acc else acc ++ [op + (f : ℤ)])
        acc)
    []

/-- One swap step of the Fisher–Yates loop: exchange positions `i` and `j`
(identity when either index is out of range, which the source loop never
produces). -/
def listSwap {α : Type} (l : List α) (i j : ℕ) : List α :=
  match l.get? i, l.get? j with
  | some a, some b => (l.set i b).set j a
  | _, _ => l

/-- The Fisher–Yates loop of `shuffle`, counting `i` down; at index `i` the
partner is `tape i % (i + 1)`, modelling `Math.floor(Math.random()*(i+1))`. -/
def shuffleGo {α : Type} (tape : ℕ → ℕ) : List α → ℕ → List α
  | l, 0 => l
  | l, i + 1 => shuffleGo tape (listSwap l (i + 1) (tape (i + 1) % (i + 2))) i

/-- `shuffle(arr)`: Fisher–Yates over a copy, loop from `length - 1` down
to `1`. -/
def shuffle {α : Type} (tape : ℕ → ℕ) (arr : List α) : List α :=
  shuffleGo tape arr (arr.length - 1)

/-- `nextTarget`: refill the deck by shuffling `possibleMidis` exactly when
it is empty, then pop the head into `currentMidi` (`head ?? null`). -/
def nextTarget (possible : List ℤ) (tape : ℕ → ℕ) (s : QuizState) : QuizState :=
  let d := if s.deck = [] then shuffle tape possible else s.deck
  { s with currentMidi := d.head?, deck := d.tail }

/-- The `requestAnimationFrame` callback registered by the ok-branch of
`onHit`: run `nextTarget` and clear the single-flight guard.  A callback is
registered only when the guard flips to `true`, so a frame performs the
advance exactly when `pendingNext` is set. -/
def runFrame (possible : List ℤ) (tape : ℕ → ℕ) (s : QuizState) : QuizState :=
  if s.pendingNext then { nextTarget possible tape s with pendingNext := false } else s

/-- `onHit(hit)`: debounce (< 60 ms since last accepted hit → early
return), record the timestamp, bail out when there is no current target,
otherwise compare `OPEN_MIDIS[stringCount][hit.stringIndex] + hit.fret`
with `currentMidi`.  On a match, schedule one advance unless one is already
pending; otherwise signal the wrong-answer feedback.  The middle component
of the result records whether a `requestAnimationFrame` advance was
scheduled by this call. -/
def onHit (sc : StringCount) (hit : Target) (nowTs : ℚ) (s : QuizState) :
    Outcome × Bool × QuizState :=
  if nowTs - s.lastHitTs < 60 then (.ignored, false, s)
  else
    let s1 := { s with lastHitTs := nowTs }
    match s1.currentMidi with
    | none => (.ignored, false, s1)
    | some cur =>
      let midi := (OPEN_MIDIS sc).getD hit.stringIndex 0 + (hit.fret : ℤ)
      if midi = cur then
        if s1.pendingNext then (.correct, false, s1)
        else (.correct, true, { s1 with pendingNext := true })
      else (.incorrect, false, s1)

/-- SVG constant `nutWidth = 10`. -/
def nutWidth : ℚ := 10

/-- SVG constant `openPad = 18`: extra clickable pad right of the nut. -/
def openPad : ℚ := 18

/-- SVG constant `FRET_WIDTH = 5`. -/
def FRET_WIDTH : ℚ := 5

/-- `pad = Math.max(3, Math.ceil(FRET_WIDTH / 2) + 1)` from `pickHit`. -/
def hitPad : ℚ := max 3 ((⌈FRET_WIDTH / 2⌉ : ℤ) + 1 : ℚ)

/-- `fretXs[1] ?? (nutWidth + 60)` from `pickHit`. -/
def firstFretX (fretXs : List ℚ) : ℚ :=
  (fretXs.get? 1).getD (nutWidth + 60)

/-- `openGrace = Math.min(24, (firstFretX - nutWidth) * 0.25)`. -/
def openGrace (fretXs : List ℚ) : ℚ :=
  min 24 ((firstFretX fretXs - nutWidth) * (1 / 4))

/-- A board-local point (`DOMPoint`). -/
structure Pt where
  x : ℚ
  y : ℚ

/-- The nearest-string `forEach` loop of `pickHit`: walk the indexed string
y-positions with the running best index and best distance (`none` plays the
role of the initial `Infinity`), replacing the best exactly when the new
distance is strictly smaller. -/
def nearestGo (spy : ℚ) : List (ℕ × ℚ) → ℕ → Option ℚ → ℕ
  | [], best, _ => best
  | (i, y) :: rest, best, minDy =>
    let dy := |spy - y|
    match minDy with
    | none => nearestGo spy rest i (some dy)
    | some d => if dy < d then nearestGo spy rest i (some dy) else nearestGo spy rest best minDy

/-- Index of the string whose y-position is nearest to `spy` (first wins on
ties), starting from `stringIndex = 0`, `minDy = Infinity`. -/
def nearestString (spy : ℚ) (stringYs : List ℚ) : ℕ :=
  nearestGo spy stringYs.enum 0 none

/-- The fret-region scan of `pickHit`: regions `n, n+1, ...` with `rem`
regions left to try; region `n` spans `[fretXs[n-1], fretXs[n])`, shrunk by
`hitPad` on each side when wider than `2 * hitPad`. -/
def findFretGo (x : ℚ) (fretXs : List ℚ) : ℕ → ℕ → Option ℕ
  | _, 0 => none
  | n, rem + 1 =>
    let x0 := fretXs.getD (n - 1) 0
    let x1 := fretXs.getD n 0
    let p := if x1 - x0 > hitPad * 2 then (x0 + hitPad, x1 - hitPad) else (x0, x1)
    if p.1 ≤ x ∧ x < p.2 then some n else findFretGo x fretXs (n + 1) rem

/-- The `for (let n = 1; n <= frets; ...)` scan of `pickHit`; `none` is the
`fret === -1` sentinel. -/
def findFret (x : ℚ) (fretXs : List ℚ) (frets : ℕ) : Option ℕ :=
  findFretGo x fretXs 1 frets

/-- The membership test of fret region `n` as a proposition: the region
`[fretXs[n-1], fretXs[n])`, shrunk by `hitPad` on each side when wider than
`2 * hitPad`, contains `x`.  This names the condition `findFretGo` tests. -/
def fretTest (x : ℚ) (fretXs : List ℚ) (n : ℕ) : Prop :=
  let x0 := fretXs.getD (n - 1) 0
  let x1 := fretXs.getD n 0
  let p := if x1 - x0 > hitPad * 2 then (x0 + hitPad, x1 - hitPad) else (x0, x1)
  p.1 ≤ x ∧ x < p.2

instance (x : ℚ) (fretXs : List ℚ) (n : ℕ) : Decidable (fretTest x fretXs n) := by
  unfold fretTest
  infer_instance

/-- `pickHit(sp)`: nearest string by y, then the open-string zone with its
grace margin (`sp.x ≤ nutWidth + openPad + openGrace` resolves to fret 0),
then the first fret region containing `sp.x`; `none` when no region does. -/
def pickHit (stringYs fretXs : List ℚ) (frets : ℕ) (sp : Pt) : Option Target :=
  let stringIndex := nearestString sp.y stringYs
  if sp.x ≤ nutWidth + openPad + openGrace fretXs then some ⟨stringIndex, 0⟩
  else
    match findFret sp.x fretXs frets with
    | none => none
    | some f => some ⟨stringIndex, f⟩

/-- `n` consecutive deck advances, collecting the target presented after
each one (the value `setCurrentMidi` receives). -/
def advanceN (possible : List ℤ) (tape : ℕ → ℕ) : ℕ → QuizState → List (Option ℤ) × QuizState
  | 0, s => ([], s)
  | n + 1, s =>
    let s1 := nextTarget possible tape s
    let r := advanceN possible tape n s1
    (s1.currentMidi :: r.1, r.2)

/-- Process a burst of hits (no animation frame in between), counting how
many of them registered a `requestAnimationFrame` advance. -/
def processHits (sc : StringCount) : List (Target × ℚ) → QuizState → QuizState × ℕ
  | [], s => (s, 0)
  | (h, ts) :: rest, s =>
    let r := onHit sc h ts s
    let r2 := processHits sc rest r.2.2
    (r2.1, (if r.2.1 then 1 else 0) + r2.2)

/-- The padding constant evaluates to 4: `ceil(5/2) = 3`, `3 + 1 = 4`,
`max 3 4 = 4`. -/
theorem hitPad_eq : hitPad = 4 := by
  have h : (⌈FRET_WIDTH / 2⌉ : ℤ) = 3 := by
    rw [Int.ceil_eq_iff]
    norm_num [FRET_WIDTH]
  rw [hitPad, h]
  norm_num

/-- A call inside the debounce window is ignored whole: no outcome, no
schedule, no state change at all (the early `return` fires before
`lastHitTsRef` is written). -/
theorem onHit_debounced (sc : StringCount) (hit : Target) (nowTs : ℚ) (s : QuizState)
    (hfast : nowTs - s.lastHitTs < 60) :
    onHit sc hit nowTs s = (.ignored, false, s) := by
  unfold onHit
  rw [if_pos hfast]

/-- An accepted call (outside the debounce window) always records its
timestamp, whatever else it does. -/
theorem onHit_accepted_lastHitTs (sc : StringCount) (hit : Target) (nowTs : ℚ)
    (s : QuizState) (hacc : ¬ nowTs - s.lastHitTs < 60) :
    (onHit sc hit nowTs s).2.2.lastHitTs = nowTs := by
  unfold onHit
  rw [if_neg hacc]
  cases s.currentMidi
  · rfl
  · simp only []
    split_ifs <;> rfl

/-- C1.  Evaluate judges by pitch, not position: under an accepted call
with an active target `cur`, the outcome is `correct` exactly when the
pitch of the pressed cell, `OPEN_MIDIS[stringCount][stringIndex] + fret`,
equals `cur` — any cell sounding the target pitch is accepted. -/
theorem evaluate_correct_iff_pitch_eq (sc : StringCount) (hit : Target) (nowTs : ℚ)
    (s : QuizState) (cur : ℤ) (hacc : ¬ nowTs - s.lastHitTs < 60)
    (hcur : s.currentMidi = some cur) :
    (onHit sc hit nowTs s).1 = .correct ↔
      (OPEN_MIDIS sc).getD hit.stringIndex 0 + (hit.fret : ℤ) = cur := by
  unfold onHit
  rw [if_neg hacc]
  simp only [hcur]
  by_cases h : (OPEN_MIDIS sc).getD hit.stringIndex 0 + (hit.fret : ℤ) = cur
  · rw [if_pos h]
    refine iff_of_true ?_ h
    by_cases hp : s.pendingNext <;> simp [hp]
  · rw [if_neg h]
    exact iff_of_false (by simp) h

/-- C1 witness: with 4-string standard tuning and target pitch 40, both the
7th fret of string 1 (open 33) and the 2nd fret of string 2 (open 38) are
judged `correct`. -/
theorem evaluate_correct_iff_pitch_eq_witness :
    (onHit .s4 ⟨1, 7⟩ 100 ⟨some 40, [], 0, false⟩).1 = .correct ∧
    (onHit .s4 ⟨2, 2⟩ 100 ⟨some 40, [], 0, false⟩).1 = .correct :=
  ⟨(evaluate_correct_iff_pitch_eq .s4 ⟨1, 7⟩ 100 ⟨some 40, [], 0, false⟩ 40
      (by norm_num) rfl).mpr (by decide),
   (evaluate_correct_iff_pitch_eq .s4 ⟨2, 2⟩ 100 ⟨some 40, [], 0, false⟩ 40
      (by norm_num) rfl).mpr (by decide)⟩

/-- C3.  Debounce: when a second call arrives less than 60 ms after an
accepted first call, the second is ignored entirely — no outcome, no
schedule, and the state is exactly the state the first call left. -/
theorem debounce_second_call_ignored (sc1 sc2 : StringCount) (h1 h2 : Target)
    (t1 t2 : ℚ) (s : QuizState) (hacc : ¬ t1 - s.lastHitTs < 60)
    (hfast : t2 - t1 < 60) :
    onHit sc2 h2 t2 (onHit sc1 h1 t1 s).2.2 =
      (.ignored, false, (onHit sc1 h1 t1 s).2.2) := by
  apply onHit_debounced
  rw [onHit_accepted_lastHitTs sc1 h1 t1 s hacc]
  exact hfast

/-- C3 witness: an accepted correct hit at t=100 followed 30 ms later by a
second hit — the second is swallowed with no state change. -/
theorem debounce_second_call_ignored_witness :
    onHit .s4 ⟨0, 0⟩ 130 (onHit .s4 ⟨1, 7⟩ 100 ⟨some 40, [], 0, false⟩).2.2 =
      (.ignored, false, (onHit .s4 ⟨1, 7⟩ 100 ⟨some 40, [], 0, false⟩).2.2) :=
  debounce_second_call_ignored .s4 .s4 ⟨1, 7⟩ ⟨0, 0⟩ 100 130
    ⟨some 40, [], 0, false⟩ (by norm_num) (by norm_num)

/-- C6 counterexample: with no active target, an accepted hit is *ignored*
(the callback returns before computing a pitch or signalling feedback); it
does not produce the `incorrect` outcome the claim requires. -/
theorem no_target_hit_not_incorrect :
    (onHit .s4 ⟨0, 0⟩ 100 ⟨none, [], 0, false⟩).1 = .ignored ∧
      Outcome.ignored ≠ Outcome.incorrect := by
  constructor
  · norm_num [onHit]
  · decide

/-- C6 amended: when `CurrentTarget` is "none", Evaluate of any target does
not crash and is ignored: it yields neither `correct` nor `incorrect`,
schedules no advance, and leaves target, deck and guard unchanged (only the
debounce timestamp is recorded). -/
theorem no_target_hit_ignored (sc : StringCount) (hit : Target) (nowTs : ℚ)
    (s : QuizState) (hnone : s.currentMidi = none) :
    (onHit sc hit nowTs s).1 = .ignored ∧
    (onHit sc hit nowTs s).2.1 = false ∧
    (onHit sc hit nowTs s).2.2.currentMidi = none ∧
    (onHit sc hit nowTs s).2.2.deck = s.deck ∧
    (onHit sc hit nowTs s).2.2.pendingNext = s.pendingNext := by
  unfold onHit
  split_ifs with h
  · simp [hnone]
  · simp [hnone]

/-- C6 amended witness: concrete no-target state, accepted hit. -/
theorem no_target_hit_ignored_witness :
    (onHit .s4 ⟨0, 0⟩ 100 ⟨none, [7], 0, true⟩).1 = .ignored ∧
    (onHit .s4 ⟨0, 0⟩ 100 ⟨none, [7], 0, true⟩).2.1 = false ∧
    (onHit .s4 ⟨0, 0⟩ 100 ⟨none, [7], 0, true⟩).2.2.currentMidi = none ∧
    (onHit .s4 ⟨0, 0⟩ 100 ⟨none, [7], 0, true⟩).2.2.deck = [7] ∧
    (onHit .s4 ⟨0, 0⟩ 100 ⟨none, [7], 0, true⟩).2.2.pendingNext = true :=
  no_target_hit_ignored .s4 ⟨0, 0⟩ 100 ⟨none, [7], 0, true⟩ rfl

/-- C7.  Frame condition on `incorrect`: an accepted call whose pitch
misses the target produces the `incorrect` outcome, schedules nothing, and
the whole state change is the debounce timestamp — `currentMidi`, the deck
and the guard are untouched (the shake/overlay feedback is outside this
state). -/
theorem incorrect_changes_nothing (sc : StringCount) (hit : Target) (nowTs : ℚ)
    (s : QuizState) (cur : ℤ) (hacc : ¬ nowTs - s.lastHitTs < 60)
    (hcur : s.currentMidi = some cur)
    (hne : (OPEN_MIDIS sc).getD hit.stringIndex 0 + (hit.fret : ℤ) ≠ cur) :
    onHit sc hit nowTs s = (.incorrect, false, { s with lastHitTs := nowTs }) := by
  unfold onHit
  rw [if_neg hacc]
  simp only [hcur]
  rw [if_neg hne]

/-- C7 witness: target 40, pressing string 0 fret 5 (pitch 33) — incorrect,
deck and target untouched. -/
theorem incorrect_changes_nothing_witness :
    onHit .s4 ⟨0, 5⟩ 100 ⟨some 40, [41, 42], 0, false⟩ =
      (.incorrect, false, ⟨some 40, [41, 42], 100, false⟩) :=
  incorrect_changes_nothing .s4 ⟨0, 5⟩ 100 ⟨some 40, [41, 42], 0, false⟩ 40
    (by norm_num) rfl (by decide)

/-- C9.  `pitchName` reduces the pitch modulo 12 against the fixed
12-entry sharp name table with octave `floor(pitch/12) - 1` (the spec's
formula, `pitchNameSpec`), and in particular names pitch 40 "E2". -/
theorem pitchName_mod12_sharp_table :
    midiToNameOctave 40 = "E2" ∧ ∀ m : ℕ, midiToNameOctave m = pitchNameSpec m := by
  refine ⟨by decide, fun m => rfl⟩

/-- The nearest-string loop never invents an index: the result is the
running best or one of the walked indices. -/
theorem nearestGo_lt (spy : ℚ) :
    ∀ (l : List (ℕ × ℚ)) (best : ℕ) (md : Option ℚ) (n : ℕ),
      best < n → (∀ p ∈ l, p.1 < n) → nearestGo spy l best md < n := by
  intro l
  induction l with
  | nil => intro best md n hb _; exact hb
  | cons p rest ih =>
    intro best md n hb hp
    obtain ⟨i, y⟩ := p
    have hi : i < n := hp (i, y) (List.mem_cons_self _ _)
    have hrest : ∀ q ∈ rest, q.1 < n := fun q hq => hp q (List.mem_cons_of_mem _ hq)
    cases md with
    | none => exact ih i (some |spy - y|) n hi hrest
    | some d =>
      by_cases hdy : |spy - y| < d
      · simpa [nearestGo, hdy] using ih i (some |spy - y|) n hi hrest
      · simpa [nearestGo, hdy] using ih best (some d) n hb hrest

/-- The nearest-string loop minimises the distance: starting from a best
index at distance `d`, the result's distance is at most `d` and at most the
distance of every walked entry. -/
theorem nearestGo_min (spy : ℚ) (ys : List ℚ) :
    ∀ (l : List (ℕ × ℚ)) (best : ℕ) (d : ℚ),
      (∀ p ∈ l, p.2 = ys.getD p.1 0) → d = |spy - ys.getD best 0| →
      |spy - ys.getD (nearestGo spy l best (some d)) 0| ≤ d ∧
        ∀ p ∈ l, |spy - ys.getD (nearestGo spy l best (some d)) 0| ≤ |spy - ys.getD p.1 0| := by
  intro l
  induction l with
  | nil => intro best d _ hd; exact ⟨le_of_eq hd.symm, fun p hp => absurd hp (List.not_mem_nil p)⟩
  | cons q rest ih =>
    intro best d hl hd
    obtain ⟨i, y⟩ := q
    have hy : y = ys.getD i 0 := hl (i, y) (List.mem_cons_self _ _)
    have hrest : ∀ p ∈ rest, p.2 = ys.getD p.1 0 := fun p hp => hl p (List.mem_cons_of_mem _ hp)
    by_cases hdy : |spy - y| < d
    · have hih := ih i |spy - y| hrest (by rw [hy])
      refine ⟨?_, ?_⟩
      · have h2 : |spy - y| ≤ d := le_of_lt hdy
        simpa [nearestGo, hdy] using hih.1.trans h2
      · intro p hp
        rcases List.mem_cons.mp hp with h | h
        · subst h
          have hstep : nearestGo spy ((i, y) :: rest) best (some d)
              = nearestGo spy rest i (some |spy - y|) := by
            simp [nearestGo, hdy]
          rw [hstep]
          calc |spy - ys.getD (nearestGo spy rest i (some |spy - y|)) 0|
              ≤ |spy - y| := hih.1
            _ = |spy - ys.getD (i, y).1 0| := by simp [hy]
        · simpa [nearestGo, hdy] using hih.2 p h
    · have hih := ih best d hrest hd
      refine ⟨?_, ?_⟩
      · simpa [nearestGo, hdy] using hih.1
      · intro p hp
        rcases List.mem_cons.mp hp with h | h
        · subst h
          have hstep : nearestGo spy ((i, y) :: rest) best (some d)
              = nearestGo spy rest best (some d) := by
            simp [nearestGo, hdy]
          rw [hstep]
          have h2 : d ≤ |spy - y| := not_lt.mp hdy
          calc |spy - ys.getD (nearestGo spy rest best (some d)) 0|
              ≤ d := hih.1
            _ ≤ |spy - y| := h2
            _ = |spy - ys.getD (i, y).1 0| := by simp [hy]
        · simpa [nearestGo, hdy] using hih.2 p h

/-- On a non-empty board the selected string index is in range. -/
theorem nearestString_lt (spy : ℚ) (ys : List ℚ) (hys : ys ≠ []) :
    nearestString spy ys < ys.length := by
  cases ys with
  | nil => exact absurd rfl hys
  | cons y0 t =>
    refine nearestGo_lt spy _ 0 none _ (Nat.succ_pos _) ?_
    exact List.forall_mem_enum.mpr fun i hi => hi

/-- One scan step, with the region test read through `fretTest`. -/
theorem findFretGo_succ (x : ℚ) (fretXs : List ℚ) (n rem : ℕ) :
    findFretGo x fretXs n (rem + 1) =
      if fretTest x fretXs n then some n else findFretGo x fretXs (n + 1) rem := rfl

/-- First-match characterisation of the fret-region scan: it returns `f`
exactly when `f` is in the scanned range, region `f` contains `x`, and no
earlier scanned region does. -/
theorem findFretGo_eq_some_iff (x : ℚ) (fretXs : List ℚ) :
    ∀ (rem n f : ℕ),
      findFretGo x fretXs n rem = some f ↔
        n ≤ f ∧ f < n + rem ∧ fretTest x fretXs f ∧
          ∀ m, n ≤ m → m < f → ¬ fretTest x fretXs m := by
  intro rem
  induction rem with
  | zero =>
    intro n f
    constructor
    · intro h; exact absurd h (by simp [findFretGo])
    · rintro ⟨h1, h2, -⟩; omega
  | succ rem ih =>
    intro n f
    by_cases ht : fretTest x fretXs n
    · rw [findFretGo_succ, if_pos ht]
      constructor
      · intro h
        obtain rfl : n = f := Option.some.inj h
        exact ⟨le_refl n, by omega, ht, fun m h1 h2 => absurd (lt_of_le_of_lt h1 h2) (lt_irrefl n)⟩
      · rintro ⟨h1, -, h3, h4⟩
        rcases Nat.lt_or_ge n f with hlt | hge
        · exact absurd ht (h4 n (le_refl n) hlt)
        · obtain rfl : n = f := le_antisymm h1 hge
          rfl
    · rw [findFretGo_succ, if_neg ht, ih (n + 1) f]
      constructor
      · rintro ⟨h1, h2, h3, h4⟩
        refine ⟨by omega, by omega, h3, fun m hm1 hm2 => ?_⟩
        rcases Nat.eq_or_lt_of_le hm1 with rfl | hm
        · exact ht
        · exact h4 m hm hm2
      · rintro ⟨h1, h2, h3, h4⟩
        have hne : f ≠ n := fun h => ht (h ▸ h3)
        exact ⟨by omega, by omega, h3, fun m hm1 hm2 => h4 m (Nat.le_of_succ_le hm1) hm2⟩

/-- The scan returns `none` exactly when no scanned region contains `x`. -/
theorem findFretGo_eq_none_iff (x : ℚ) (fretXs : List ℚ) :
    ∀ (rem n : ℕ),
      findFretGo x fretXs n rem = none ↔
        ∀ m, n ≤ m → m < n + rem → ¬ fretTest x fretXs m := by
  intro rem
  induction rem with
  | zero =>
    intro n
    simp [findFretGo]
    omega
  | succ rem ih =>
    intro n
    by_cases ht : fretTest x fretXs n
    · rw [findFretGo_succ, if_pos ht]
      simp only [reduceCtorEq, false_iff]
      exact fun h => h n (le_refl n) (by omega) ht
    · rw [findFretGo_succ, if_neg ht, ih (n + 1)]
      constructor
      · intro h m hm1 hm2
        rcases Nat.eq_or_lt_of_le hm1 with rfl | hm
        · exact ht
        · exact h m hm (by omega)
      · intro h m hm1 hm2
        exact h m (Nat.le_of_succ_le hm1) (by omega)

/-- The selected string minimises vertical distance over the whole board
(ties to the lower index, matching the strict-inequality update). -/
theorem nearestString_min (spy : ℚ) (ys : List ℚ) :
    ∀ j, j < ys.length →
      |spy - ys.getD (nearestString spy ys) 0| ≤ |spy - ys.getD j 0| := by
  cases ys with
  | nil => intro j hj; exact absurd hj (by simp)
  | cons y0 t =>
    have hstep : nearestString spy (y0 :: t)
        = nearestGo spy (t.enumFrom 1) 0 (some |spy - y0|) := rfl
    have h2 : ∀ p ∈ t.enumFrom 1, p.2 = (y0 :: t).getD p.1 0 := by
      refine List.forall_mem_enumFrom.mpr fun i hi => ?_
      rw [Nat.add_comm 1 i, List.getD_cons_succ, List.getD_eq_getElem t 0 hi]
    have hmain := nearestGo_min spy (y0 :: t) (t.enumFrom 1) 0 (|spy - y0|) h2 rfl
    intro j hj
    rw [hstep]
    cases j with
    | zero => exact hmain.1
    | succ k =>
      have hk : k < t.length := by simpa using hj
      have hmem : ((1 + k, t[k]) : ℕ × ℚ) ∈ t.enumFrom 1 :=
        List.mk_add_mem_enumFrom_iff_getElem?.mpr (List.getElem?_eq_getElem hk)
      have := hmain.2 (1 + k, t[k]) hmem
      simpa [Nat.add_comm 1 k] using this

/-- C8.  Open-string zone: whenever the point's x is at most
`nutWidth + openPad + openGrace` (grace = min(24, 25% of first-fret
width)), the hit resolves to fret 0 on the nearest string — regardless of
the fret regions — and "nearest" really minimises the vertical distance. -/
theorem openZone_fret0_nearest (stringYs fretXs : List ℚ) (frets : ℕ) (sp : Pt)
    (hx : sp.x ≤ nutWidth + openPad + openGrace fretXs) :
    pickHit stringYs fretXs frets sp = some ⟨nearestString sp.y stringYs, 0⟩ ∧
      ∀ j, j < stringYs.length →
        |sp.y - stringYs.getD (nearestString sp.y stringYs) 0| ≤
          |sp.y - stringYs.getD j 0| := by
  constructor
  · unfold pickHit
    rw [if_pos hx]
  · exact nearestString_min sp.y stringYs

/-- C8 witness: board with strings at y=30 and y=70, point (20, 60) inside
the open zone — fret 0 on string 1, the nearest string. -/
theorem openZone_fret0_nearest_witness :
    pickHit [30, 70] [10, 110, 210] 2 ⟨20, 60⟩ = some ⟨nearestString 60 [30, 70], 0⟩ ∧
      ∀ j, j < ([30, 70] : List ℚ).length →
        |(60 : ℚ) - ([30, 70] : List ℚ).getD (nearestString 60 [30, 70]) 0| ≤
          |(60 : ℚ) - ([30, 70] : List ℚ).getD j 0| :=
  openZone_fret0_nearest [30, 70] [10, 110, 210] 2 ⟨20, 60⟩ (by
    norm_num [openGrace, firstFretX, nutWidth, openPad, min_def])

/-- C10.  The hit tester never returns an out-of-range cell: any returned
target has its string index within the board's strings and its fret within
`0..frets`. -/
theorem pickHit_in_range (stringYs fretXs : List ℚ) (frets : ℕ) (sp : Pt) (t : Target)
    (hs : 1 ≤ stringYs.length) (_hf : 1 ≤ frets)
    (h : pickHit stringYs fretXs frets sp = some t) :
    t.stringIndex < stringYs.length ∧ t.fret ≤ frets := by
  have hys : stringYs ≠ [] := by
    intro hnil
    rw [hnil] at hs
    exact absurd hs (by simp)
  have hlt : nearestString sp.y stringYs < stringYs.length := nearestString_lt sp.y stringYs hys
  unfold pickHit at h
  split_ifs at h with hx
  · obtain rfl : (⟨nearestString sp.y stringYs, 0⟩ : Target) = t := Option.some.inj h
    exact ⟨hlt, Nat.zero_le frets⟩
  · cases hff : findFret sp.x fretXs frets with
    | none => rw [hff] at h; exact absurd h (by simp)
    | some fr =>
      rw [hff] at h
      obtain rfl : (⟨nearestString sp.y stringYs, fr⟩ : Target) = t := Option.some.inj h
      have hb := (findFretGo_eq_some_iff sp.x fretXs frets 1 fr).mp hff
      refine ⟨hlt, ?_⟩
      show fr ≤ frets
      omega

/-- C10 witness: point (60, 50) on a one-string, two-fret board lands on a
cell, and the theorem bounds it. -/
theorem pickHit_in_range_witness :
    (⟨0, 1⟩ : Target).stringIndex < ([50] : List ℚ).length ∧ (⟨0, 1⟩ : Target).fret ≤ 2 :=
  pickHit_in_range [50] [10, 110, 210] 2 ⟨60, 50⟩ ⟨0, 1⟩ (by norm_num) (by norm_num)
    (by norm_num [pickHit, nearestString, nearestGo, openGrace, firstFretX, nutWidth, openPad,
      findFret, findFretGo, hitPad_eq, min_def, List.enum])

/-- The padding is positive. -/
theorem hitPad_pos : (0 : ℚ) < hitPad := by
  rw [hitPad_eq]
  norm_num

/-- `fretTest` spelled out over the two padding cases. -/
theorem fretTest_iff (x : ℚ) (fretXs : List ℚ) (n : ℕ) :
    fretTest x fretXs n ↔
      if fretXs.getD n 0 - fretXs.getD (n - 1) 0 > hitPad * 2
        then fretXs.getD (n - 1) 0 + hitPad ≤ x ∧ x < fretXs.getD n 0 - hitPad
        else fretXs.getD (n - 1) 0 ≤ x ∧ x < fretXs.getD n 0 := by
  unfold fretTest
  simp only []
  split_ifs with h
  · exact Iff.rfl
  · exact Iff.rfl

/-- Strictly sorted boundaries read through `getD` are strictly monotone in
range. -/
theorem chain_getD_lt (l : List ℚ) (hs : List.Chain' (· < ·) l) (i j : ℕ)
    (hij : i < j) (hj : j < l.length) : l.getD i 0 < l.getD j 0 := by
  have hp := List.chain'_iff_pairwise.mp hs
  have hi : i < l.length := lt_trans hij hj
  rw [List.getD_eq_getElem l 0 hi, List.getD_eq_getElem l 0 hj]
  exact List.pairwise_iff_getElem.mp hp i j hi hj hij

/-- Outside the open zone with no matching region the hit is a no-match. -/
theorem pickHit_of_findFret_none (stringYs fretXs : List ℚ) (frets : ℕ) (sp : Pt)
    (hopen : ¬ sp.x ≤ nutWidth + openPad + openGrace fretXs)
    (hf : findFret sp.x fretXs frets = none) :
    pickHit stringYs fretXs frets sp = none := by
  unfold pickHit
  rw [if_neg hopen, hf]

/-- Outside the open zone a matching region gives its fret on the nearest
string. -/
theorem pickHit_of_findFret_some (stringYs fretXs : List ℚ) (frets : ℕ) (sp : Pt) (f : ℕ)
    (hopen : ¬ sp.x ≤ nutWidth + openPad + openGrace fretXs)
    (hf : findFret sp.x fretXs frets = some f) :
    pickHit stringYs fretXs frets sp = some ⟨nearestString sp.y stringYs, f⟩ := by
  unfold pickHit
  rw [if_neg hopen, hf]

/-- C5 (amended).  Fret-boundary rule as implemented: region `n` is
`[boundary[n-1], boundary[n])` shrunk by the padding on each side when
wider than `2 * hitPad`.  A point exactly at an interior fret boundary is a
no-match (dead zone) when the regions on both sides are padded, and
belongs to the higher-numbered region when that region is too narrow to be
padded.  A point beyond the open-zone-plus-grace and before the first fret
boundary resolves to fret 1 when inside fret 1's padded region, and to
no-match in the dead zone at the padded region's right edge. -/
theorem fret_boundary_rule (stringYs fretXs : List ℚ) (frets k : ℕ) (sp : Pt)
    (hlen : fretXs.length = frets + 1)
    (hsort : List.Chain' (· < ·) fretXs)
    (h0 : fretXs.getD 0 0 = nutWidth)
    (hopen : ¬ sp.x ≤ nutWidth + openPad + openGrace fretXs)
    (hk1 : 1 ≤ k) (hk2 : k < frets) :
    (sp.x = fretXs.getD k 0 →
      (fretXs.getD k 0 - fretXs.getD (k - 1) 0 > hitPad * 2 →
        fretXs.getD (k + 1) 0 - fretXs.getD k 0 > hitPad * 2 →
        pickHit stringYs fretXs frets sp = none) ∧
      (¬ fretXs.getD (k + 1) 0 - fretXs.getD k 0 > hitPad * 2 →
        pickHit stringYs fretXs frets sp = some ⟨nearestString sp.y stringYs, k + 1⟩)) ∧
    (fretXs.getD 1 0 - fretXs.getD 0 0 > hitPad * 2 →
      (sp.x < fretXs.getD 1 0 - hitPad →
        pickHit stringYs fretXs frets sp = some ⟨nearestString sp.y stringYs, 1⟩) ∧
      (fretXs.getD 1 0 - hitPad ≤ sp.x → sp.x < fretXs.getD 1 0 →
        pickHit stringYs fretXs frets sp = none)) := by
  have hmono : ∀ i j : ℕ, i < j → j ≤ frets → fretXs.getD i 0 < fretXs.getD j 0 := by
    intro i j hij hj
    exact chain_getD_lt fretXs hsort i j hij (by omega)
  have hxlarge : nutWidth + openPad + openGrace fretXs < sp.x := not_le.mp hopen
  have hff : firstFretX fretXs = fretXs.getD 1 0 := by
    unfold firstFretX
    have h1 : 1 < fretXs.length := by omega
    rw [List.get?_eq_getElem?, List.getElem?_eq_getElem h1, List.getD_eq_getElem fretXs 0 h1]
    rfl
  have hA01 : fretXs.getD 0 0 < fretXs.getD 1 0 := hmono 0 1 (by omega) (by omega)
  have hgrace : 0 ≤ openGrace fretXs := by
    unfold openGrace
    rw [hff]
    refine le_min (by norm_num) ?_
    have hpos : (0 : ℚ) < fretXs.getD 1 0 - nutWidth := by
      rw [← h0]
      linarith
    linarith
  have hx28 : nutWidth + openPad < sp.x := by linarith
  have hpadlt : hitPad < openPad := by norm_num [hitPad_eq, openPad]
  have hpadpos := hitPad_pos
  have hlow : ∀ m : ℕ, fretXs.getD m 0 ≤ sp.x → ¬ fretTest sp.x fretXs m := by
    intro m hm ht
    rw [fretTest_iff] at ht
    split_ifs at ht with hw
    · linarith [ht.2]
    · linarith [ht.2]
  have hhigh : ∀ m : ℕ, sp.x < fretXs.getD (m - 1) 0 → ¬ fretTest sp.x fretXs m := by
    intro m hm ht
    rw [fretTest_iff] at ht
    split_ifs at ht with hw
    · linarith [ht.1]
    · linarith [ht.1]
  constructor
  · intro hx
    constructor
    · intro hwk hwk1
      apply pickHit_of_findFret_none _ _ _ _ hopen
      unfold findFret
      rw [findFretGo_eq_none_iff]
      intro m hm1 hm2
      rcases Nat.lt_or_ge m (k + 1) with hmk | hmk
      · refine hlow m ?_
        rcases Nat.eq_or_lt_of_le (Nat.le_of_lt_succ hmk) with rfl | hlt
        · exact le_of_eq hx.symm
        · rw [hx]
          exact le_of_lt (hmono m k hlt (by omega))
      · rcases Nat.eq_or_lt_of_le hmk with rfl | hmk'
        · intro ht
          rw [fretTest_iff] at ht
          simp only [Nat.add_sub_cancel] at ht
          rw [if_pos hwk1] at ht
          have h1 := ht.1
          rw [hx] at h1
          linarith
        · refine hhigh m ?_
          have hk1m : fretXs.getD k 0 < fretXs.getD (m - 1) 0 :=
            hmono k (m - 1) (by omega) (by omega)
          rw [hx]
          exact hk1m
    · intro hnw
      apply pickHit_of_findFret_some _ _ _ _ _ hopen
      unfold findFret
      rw [findFretGo_eq_some_iff]
      refine ⟨by omega, by omega, ?_, ?_⟩
      · rw [fretTest_iff]
        simp only [Nat.add_sub_cancel]
        rw [if_neg hnw]
        refine ⟨le_of_eq hx.symm, ?_⟩
        rw [hx]
        exact hmono k (k + 1) (by omega) (by omega)
      · intro m hm1 hm2
        refine hlow m ?_
        rcases Nat.eq_or_lt_of_le (Nat.le_of_lt_succ hm2) with rfl | hlt
        · exact le_of_eq hx.symm
        · rw [hx]
          exact le_of_lt (hmono m k hlt (by omega))
  · intro hw1
    constructor
    · intro hlt
      apply pickHit_of_findFret_some _ _ _ _ _ hopen
      unfold findFret
      rw [findFretGo_eq_some_iff]
      refine ⟨le_refl 1, by omega, ?_, ?_⟩
      · rw [fretTest_iff]
        simp only [Nat.sub_self]
        rw [if_pos hw1]
        constructor
        · rw [h0]
          linarith
        · exact hlt
      · intro m hm1 hm2 _
        omega
    · intro hge hlt
      apply pickHit_of_findFret_none _ _ _ _ hopen
      unfold findFret
      rw [findFretGo_eq_none_iff]
      intro m hm1 hm2
      rcases Nat.eq_or_lt_of_le hm1 with rfl | hm
      · intro ht
        rw [fretTest_iff] at ht
        simp only [Nat.sub_self] at ht
        rw [if_pos hw1] at ht
        linarith [ht.2]
      · refine hhigh m ?_
        have h1m : fretXs.getD 1 0 ≤ fretXs.getD (m - 1) 0 := by
          rcases Nat.eq_or_lt_of_le (by omega : 1 ≤ m - 1) with heq | hlt2
          · rw [← heq]
          · exact le_of_lt (hmono 1 (m - 1) hlt2 (by omega))
        linarith

/-- C5 counterexample: with boundaries 10, 110, 210 (both regions wider
than `2 * hitPad`, hence padded), the point exactly at the fret-1/fret-2
boundary x = 110 matches nothing — it does not belong to fret region 2 as
the claim requires. -/
theorem fret_boundary_point_not_higher_region :
    pickHit [50] [10, 110, 210] 2 ⟨110, 50⟩ = none ∧
      (none : Option Target) ≠ some ⟨0, 2⟩ := by
  constructor
  · norm_num [pickHit, nearestString, nearestGo, openGrace, firstFretX, nutWidth, openPad,
      findFret, findFretGo, hitPad_eq, min_def, List.enum]
  · simp

/-- C5 witness: boundaries 10, 110, 210, 218 with the point at the
boundary x = 110, k = 1. -/
theorem fret_boundary_rule_witness :
    ((110 : ℚ) = ([10, 110, 210, 218] : List ℚ).getD 1 0 →
      (([10, 110, 210, 218] : List ℚ).getD 1 0 - ([10, 110, 210, 218] : List ℚ).getD 0 0 >
          hitPad * 2 →
        ([10, 110, 210, 218] : List ℚ).getD 2 0 - ([10, 110, 210, 218] : List ℚ).getD 1 0 >
            hitPad * 2 →
        pickHit [50] [10, 110, 210, 218] 3 ⟨110, 50⟩ = none) ∧
      (¬ ([10, 110, 210, 218] : List ℚ).getD 2 0 - ([10, 110, 210, 218] : List ℚ).getD 1 0 >
            hitPad * 2 →
        pickHit [50] [10, 110, 210, 218] 3 ⟨110, 50⟩ = some ⟨nearestString 50 [50], 2⟩)) ∧
    (([10, 110, 210, 218] : List ℚ).getD 1 0 - ([10, 110, 210, 218] : List ℚ).getD 0 0 >
        hitPad * 2 →
      ((110 : ℚ) < ([10, 110, 210, 218] : List ℚ).getD 1 0 - hitPad →
        pickHit [50] [10, 110, 210, 218] 3 ⟨110, 50⟩ = some ⟨nearestString 50 [50], 1⟩) ∧
      (([10, 110, 210, 218] : List ℚ).getD 1 0 - hitPad ≤ 110 →
        (110 : ℚ) < ([10, 110, 210, 218] : List ℚ).getD 1 0 →
        pickHit [50] [10, 110, 210, 218] 3 ⟨110, 50⟩ = none)) :=
  fret_boundary_rule [50] [10, 110, 210, 218] 3 1 ⟨110, 50⟩ (by norm_num)
    (by norm_num [List.chain'_cons, List.chain'_singleton]) (by norm_num [nutWidth])
    (by norm_num [openGrace, firstFretX, nutWidth, openPad, min_def]) (by norm_num)
    (by norm_num)

/-- `onHit` with the state threading written out (pure unfolding). -/
theorem onHit_cases (sc : StringCount) (hit : Target) (nowTs : ℚ) (s : QuizState) :
    onHit sc hit nowTs s =
      if nowTs - s.lastHitTs < 60 then (.ignored, false, s)
      else
        match s.currentMidi with
        | none => (.ignored, false, { s with lastHitTs := nowTs })
        | some cur =>
          if (OPEN_MIDIS sc).getD hit.stringIndex 0 + (hit.fret : ℤ) = cur then
            if s.pendingNext then (.correct, false, { s with lastHitTs := nowTs })
            else (.correct, true, { s with lastHitTs := nowTs, pendingNext := true })
          else (.incorrect, false, { s with lastHitTs := nowTs }) := rfl

/-- The single-flight guard never drops inside `onHit`, and a call
schedules an advance only from a clear guard: the guard after a call is
`old guard OR scheduled`, and `scheduled = true` forces the old guard to
have been `false`. -/
theorem onHit_guard (sc : StringCount) (hit : Target) (nowTs : ℚ) (s : QuizState) :
    (onHit sc hit nowTs s).2.2.pendingNext = (s.pendingNext || (onHit sc hit nowTs s).2.1) ∧
      ((onHit sc hit nowTs s).2.1 = true → s.pendingNext = false) := by
  rw [onHit_cases]
  by_cases h1 : nowTs - s.lastHitTs < 60
  · rw [if_pos h1]
    exact ⟨by simp, by simp⟩
  · rw [if_neg h1]
    cases s.currentMidi with
    | none => exact ⟨by simp, by simp⟩
    | some cur =>
      simp only []
      by_cases h2 : (OPEN_MIDIS sc).getD hit.stringIndex 0 + (hit.fret : ℤ) = cur
      · rw [if_pos h2]
        by_cases h3 : s.pendingNext
        · simp [h3]
        · simp [h3]
      · rw [if_neg h2]
        exact ⟨by simp, by simp⟩

/-- One burst step of `processHits` (pure unfolding). -/
theorem processHits_cons (sc : StringCount) (h : Target) (ts : ℚ)
    (rest : List (Target × ℚ)) (s : QuizState) :
    processHits sc ((h, ts) :: rest) s =
      ((processHits sc rest (onHit sc h ts s).2.2).1,
        (if (onHit sc h ts s).2.1 then 1 else 0) +
          (processHits sc rest (onHit sc h ts s).2.2).2) := rfl

/-- Once the guard is up, a burst of further hits schedules nothing and the
guard stays up (only a frame clears it). -/
theorem processHits_pending_true (sc : StringCount) :
    ∀ (hits : List (Target × ℚ)) (s : QuizState), s.pendingNext = true →
      (processHits sc hits s).1.pendingNext = true ∧ (processHits sc hits s).2 = 0 := by
  intro hits
  induction hits with
  | nil => intro s hp; exact ⟨hp, rfl⟩
  | cons ht rest ih =>
    intro s hp
    obtain ⟨h, ts⟩ := ht
    have hg := onHit_guard sc h ts s
    have hsched : (onHit sc h ts s).2.1 = false := by
      by_contra hb
      have hfalse := hg.2 (by simpa using hb)
      rw [hp] at hfalse
      cases hfalse
    have hpend : (onHit sc h ts s).2.2.pendingNext = true := by
      rw [hg.1, hp]
      simp
    have hr := ih (onHit sc h ts s).2.2 hpend
    rw [processHits_cons]
    exact ⟨hr.1, by simp [hsched, hr.2]⟩

/-- From a clear guard, a burst of hits schedules at most one advance. -/
theorem processHits_le_one (sc : StringCount) :
    ∀ (hits : List (Target × ℚ)) (s : QuizState), s.pendingNext = false →
      (processHits sc hits s).2 ≤ 1 := by
  intro hits
  induction hits with
  | nil => intro s _; exact Nat.zero_le 1
  | cons ht rest ih =>
    intro s hp
    obtain ⟨h, ts⟩ := ht
    rw [processHits_cons]
    have hg := onHit_guard sc h ts s
    by_cases hsch : (onHit sc h ts s).2.1 = true
    · have hpend : (onHit sc h ts s).2.2.pendingNext = true := by
        rw [hg.1, hsch]
        simp
      have h0 := (processHits_pending_true sc rest _ hpend).2
      simp [hsch, h0]
    · have hsch' : (onHit sc h ts s).2.1 = false := by simpa using hsch
      have hpend : (onHit sc h ts s).2.2.pendingNext = false := by
        rw [hg.1, hp, hsch']
        rfl
      have hr := ih _ hpend
      simpa [hsch'] using hr

/-- C4.  Single-flight guard: from a clear guard, a burst of hits (with no
animation frame in between) schedules at most one pending advance; once the
guard is up, further hits schedule nothing and the guard stays up; a frame
with the guard up performs exactly one advance and then clears the guard;
a frame with the guard down does nothing. -/
theorem single_flight_guard (sc : StringCount) (hits : List (Target × ℚ)) (s : QuizState)
    (possible : List ℤ) (tape : ℕ → ℕ) (hguard : s.pendingNext = false) :
    (processHits sc hits s).2 ≤ 1 ∧
    (∀ s2 : QuizState, s2.pendingNext = true →
      (processHits sc hits s2).1.pendingNext = true ∧ (processHits sc hits s2).2 = 0) ∧
    (∀ s2 : QuizState, s2.pendingNext = true →
      runFrame possible tape s2 = { nextTarget possible tape s2 with pendingNext := false }) ∧
    (∀ s2 : QuizState, s2.pendingNext = false → runFrame possible tape s2 = s2) := by
  refine ⟨processHits_le_one sc hits s hguard,
    fun s2 h2 => processHits_pending_true sc hits s2 h2, ?_, ?_⟩
  · intro s2 h2
    unfold runFrame
    rw [if_pos h2]
  · intro s2 h2
    unfold runFrame
    rw [if_neg (by simp [h2])]

/-- C4 witness: two correct hits in one burst from a clear guard. -/
theorem single_flight_guard_witness :
    (processHits .s4 [(⟨1, 7⟩, 100), (⟨2, 2⟩, 200)] ⟨some 40, [41], 0, false⟩).2 ≤ 1 ∧
    (∀ s2 : QuizState, s2.pendingNext = true →
      (processHits .s4 [(⟨1, 7⟩, 100), (⟨2, 2⟩, 200)] s2).1.pendingNext = true ∧
        (processHits .s4 [(⟨1, 7⟩, 100), (⟨2, 2⟩, 200)] s2).2 = 0) ∧
    (∀ s2 : QuizState, s2.pendingNext = true →
      runFrame [40, 41] (fun _ => 0) s2 =
        { nextTarget [40, 41] (fun _ => 0) s2 with pendingNext := false }) ∧
    (∀ s2 : QuizState, s2.pendingNext = false → runFrame [40, 41] (fun _ => 0) s2 = s2) :=
  single_flight_guard .s4 [(⟨1, 7⟩, 100), (⟨2, 2⟩, 200)] ⟨some 40, [41], 0, false⟩
    [40, 41] (fun _ => 0) rfl

/-- Moving the element at index `k` to the front while writing `y` in its
place permutes a cons of `y`: the heart of one Fisher–Yates swap. -/
theorem cons_set_perm {α : Type} :
    ∀ (t : List α) (k : ℕ) (x y : α), t.get? k = some x →
      (x :: t.set k y).Perm (y :: t) := by
  intro t
  induction t with
  | nil => intro k x y h; simp at h
  | cons c t' ih =>
    intro k x y h
    cases k with
    | zero =>
      have hc : c = x := by simpa using h
      subst hc
      simpa using List.Perm.swap y c t'
    | succ k' =>
      have ht : t'.get? k' = some x := by simpa using h
      have step1 : (x :: c :: t'.set k' y).Perm (c :: x :: t'.set k' y) :=
        List.Perm.swap c x (t'.set k' y)
      have step2 : (c :: x :: t'.set k' y).Perm (c :: y :: t') :=
        (ih k' x y ht).cons c
      have step3 : (c :: y :: t').Perm (y :: c :: t') := List.Perm.swap y c t'
      simpa using (step1.trans step2).trans step3

/-- Swapping two in-range positions permutes the list. -/
theorem set_set_perm {α : Type} :
    ∀ (l : List α) (i j : ℕ) (a b : α),
      l.get? i = some a → l.get? j = some b → ((l.set i b).set j a).Perm l := by
  intro l
  induction l with
  | nil => intro i j a b hi _; simp at hi
  | cons c t ih =>
    intro i j a b hi hj
    cases i with
    | zero =>
      have hc : c = a := by simpa using hi
      cases j with
      | zero =>
        have hcb : c = b := by simpa using hj
        rw [← hc, ← hcb]
        simp
      | succ k =>
        have hjk : t.get? k = some b := by simpa using hj
        rw [← hc]
        simpa using cons_set_perm t k b c hjk
    | succ m =>
      have him : t.get? m = some a := by simpa using hi
      cases j with
      | zero =>
        have hc : c = b := by simpa using hj
        rw [← hc]
        simpa using cons_set_perm t m a c him
      | succ n =>
        have hjn : t.get? n = some b := by simpa using hj
        simpa using (ih m n a b him hjn).cons c

/-- One swap step of the loop permutes the list (identity when out of
range). -/
theorem listSwap_perm {α : Type} (l : List α) (i j : ℕ) : (listSwap l i j).Perm l := by
  unfold listSwap
  cases hi : l.get? i with
  | none => exact List.Perm.refl l
  | some a =>
    cases hj : l.get? j with
    | none => exact List.Perm.refl l
    | some b => exact set_set_perm l i j a b hi hj

/-- The whole Fisher–Yates loop permutes the list. -/
theorem shuffleGo_perm {α : Type} (tape : ℕ → ℕ) :
    ∀ (n : ℕ) (l : List α), (shuffleGo tape l n).Perm l := by
  intro n
  induction n with
  | zero => intro l; exact List.Perm.refl l
  | succ m ih =>
    intro l
    exact (ih _).trans (listSwap_perm l (m + 1) (tape (m + 1) % (m + 2)))

/-- `shuffle` returns a permutation of its input. -/
theorem shuffle_perm {α : Type} (tape : ℕ → ℕ) (arr : List α) :
    (shuffle tape arr).Perm arr :=
  shuffleGo_perm tape (arr.length - 1) arr

/-- One advance (pure unfolding). -/
theorem advanceN_succ (possible : List ℤ) (tape : ℕ → ℕ) (n : ℕ) (s : QuizState) :
    advanceN possible tape (n + 1) s =
      ((nextTarget possible tape s).currentMidi ::
          (advanceN possible tape n (nextTarget possible tape s)).1,
        (advanceN possible tape n (nextTarget possible tape s)).2) := rfl

/-- A non-empty deck advances by popping its head — no reshuffle. -/
theorem nextTarget_of_ne (possible : List ℤ) (tape : ℕ → ℕ) (s : QuizState)
    (h : s.deck ≠ []) :
    nextTarget possible tape s =
      { s with currentMidi := s.deck.head?, deck := s.deck.tail } := by
  unfold nextTarget
  rw [if_neg h]

/-- An empty deck is refilled by a fresh shuffle before popping. -/
theorem nextTarget_of_empty (possible : List ℤ) (tape : ℕ → ℕ) (s : QuizState)
    (h : s.deck = []) :
    nextTarget possible tape s =
      { s with currentMidi := (shuffle tape possible).head?,
               deck := (shuffle tape possible).tail } := by
  unfold nextTarget
  rw [if_pos h]

/-- Advancing exactly deck-length many times presents precisely the deck,
in order, with no reshuffle in between. -/
theorem advanceN_deck (possible : List ℤ) (tape : ℕ → ℕ) :
    ∀ (n : ℕ) (s : QuizState), s.deck.length = n →
      (advanceN possible tape n s).1 = s.deck.map some := by
  intro n
  induction n with
  | zero =>
    intro s h
    rw [List.length_eq_zero.mp h]
    rfl
  | succ m ih =>
    intro s h
    cases hd : s.deck with
    | nil => rw [hd] at h; simp at h
    | cons d t =>
      have hne : s.deck ≠ [] := by simp [hd]
      rw [advanceN_succ, nextTarget_of_ne possible tape s hne]
      have hlen : s.deck.tail.length = m := by
        rw [hd] at h ⊢
        simp at h ⊢
        omega
      rw [ih { s with currentMidi := s.deck.head?, deck := s.deck.tail } hlen]
      simp [hd]

/-- C2.  Deck non-repetition and deck invariants: from a deck that is a
permutation of the (duplicate-free) reachable set `R`, a window of
`R.length` consecutive advances presents exactly the deck in order — so
each reachable pitch exactly once; an advance reshuffles exactly when the
deck is empty (otherwise it just pops); and an advance keeps every deck
element inside `R`. -/
theorem deck_window_exactly_once (R : List ℤ) (tape tape2 : ℕ → ℕ) (s : QuizState)
    (hperm : s.deck.Perm R) (hnodup : R.Nodup) :
    ((advanceN R tape R.length s).1 = s.deck.map some ∧ s.deck.Nodup ∧
      ∀ p : ℤ, p ∈ s.deck ↔ p ∈ R) ∧
    (s.deck ≠ [] → nextTarget R tape s =
      { s with currentMidi := s.deck.head?, deck := s.deck.tail }) ∧
    (s.deck = [] → nextTarget R tape s =
      { s with currentMidi := (shuffle tape R).head?,
               deck := (shuffle tape R).tail }) ∧
    (∀ s2 : QuizState, (∀ x ∈ s2.deck, x ∈ R) →
      ∀ x ∈ (nextTarget R tape2 s2).deck, x ∈ R) := by
  have hlen : s.deck.length = R.length := hperm.length_eq
  have hwin : (advanceN R tape R.length s).1 = s.deck.map some :=
    advanceN_deck R tape R.length s hlen
  refine ⟨⟨hwin, hperm.nodup_iff.mpr hnodup, fun p => hperm.mem_iff⟩,
    nextTarget_of_ne R tape s, nextTarget_of_empty R tape s, ?_⟩
  · intro s2 hsub x hx
    by_cases he : s2.deck = []
    · rw [nextTarget_of_empty R tape2 s2 he] at hx
      exact (shuffle_perm tape2 R).mem_iff.mp (List.mem_of_mem_tail hx)
    · rw [nextTarget_of_ne R tape2 s2 he] at hx
      exact hsub x (List.mem_of_mem_tail hx)

/-- C2 witness: reachable set `[28, 29]`, fresh deck `[29, 28]`. -/
theorem deck_window_exactly_once_witness :
    ((advanceN [28, 29] (fun _ => 0) ([28, 29] : List ℤ).length
          ⟨none, [29, 28], 0, false⟩).1 = ([29, 28] : List ℤ).map some ∧
      ([29, 28] : List ℤ).Nodup ∧
      (∀ p : ℤ, p ∈ ([29, 28] : List ℤ) ↔ p ∈ ([28, 29] : List ℤ))) ∧
    (([29, 28] : List ℤ) ≠ [] →
      nextTarget [28, 29] (fun _ => 0) ⟨none, [29, 28], 0, false⟩ =
        { (⟨none, [29, 28], 0, false⟩ : QuizState) with
            currentMidi := ([29, 28] : List ℤ).head?, deck := ([29, 28] : List ℤ).tail }) ∧
    (([29, 28] : List ℤ) = [] →
      nextTarget [28, 29] (fun _ => 0) ⟨none, [29, 28], 0, false⟩ =
        { (⟨none, [29, 28], 0, false⟩ : QuizState) with
            currentMidi := (shuffle (fun _ => 0) [28, 29]).head?,
            deck := (shuffle (fun _ => 0) [28, 29]).tail }) ∧
    (∀ s2 : QuizState, (∀ x ∈ s2.deck, x ∈ ([28, 29] : List ℤ)) →
      ∀ x ∈ (nextTarget [28, 29] (fun _ => 0) s2).deck, x ∈ ([28, 29] : List ℤ)) :=
  deck_window_exactly_once [28, 29] (fun _ => 0) (fun _ => 0)
    ⟨none, [29, 28], 0, false⟩ (by decide) (by decide)

/-- The program's reachable set (`possibleMidis`, built through a JS `Set`)
is duplicate-free, so it satisfies the non-repetition hypotheses. -/
theorem possibleMidis_nodup (sc : StringCount) (frets : ℕ) :
    (possibleMidis sc frets).Nodup := by
  unfold possibleMidis
  have inner : ∀ (op : ℤ) (xs : List ℕ) (acc : List ℤ), acc.Nodup →
      (xs.foldl
        (fun (acc : List ℤ) (f : ℕ) =>
          if (op + (f : ℤ)) ∈ acc then acc else acc ++ [op + (f : ℤ)])
        acc).Nodup := by
    intro op xs
    induction xs with
    | nil => intro acc h; exact h
    | cons x t ih =>
      intro acc h
      rw [List.foldl_cons]
      by_cases hm : op + (x : ℤ) ∈ acc
      · rw [if_pos hm]
        exact ih acc h
      · rw [if_neg hm]
        refine ih _ ?_
        simp [List.nodup_append, h, hm]
  have outer : ∀ (ops : List ℤ) (acc : List ℤ), acc.Nodup →
      (ops.foldl
        (fun acc op =>
          (List.range (frets + 1)).foldl
            (fun (acc : List ℤ) (f : ℕ) =>
              if (op + (f : ℤ)) ∈ acc then acc else acc ++ [op + (f : ℤ)])
            acc)
        acc).Nodup := by
    intro ops
    induction ops with
    | nil => intro acc h; exact h
    | cons o t ih =>
      intro acc h
      rw [List.foldl_cons]
      exact ih _ (inner o _ acc h)
  exact outer (OPEN_MIDIS sc) [] List.nodup_nil
